import Mathlib

/-!
# Verification of the 2D Helmholtz finite-element solver

Shallow embedding of `src/python/solver.py` (element kernel, global assembly,
complex-to-real transform, orchestrator) and proofs of the specification claims.

All floating-point arithmetic of the source is modelled exactly: every number
produced by the solver routines lies in the field ℚ(√3, i), which we build as a
tower of computable quadratic extensions `Q3 := Sqd ℚ 3` (real scalars,
containing the Gauss abscissa 1/√3) and `K3 := Sqd Q3 (-1)` (complex scalars).
-/

/-- Quadratic extension of a commutative ring `R` by a formal square root of `q`:
elements `re + im·√q` with componentwise addition and multiplication
`(a + b√q)(c + d√q) = (ac + q·bd) + (ad + bc)√q`. -/
@[ext]
structure Sqd (R : Type) (q : R) where
  re : R
  im : R
deriving DecidableEq

namespace Sqd

@[simp] theorem mk_re {R : Type} {q a b : R} : (Sqd.mk a b : Sqd R q).re = a := rfl

@[simp] theorem mk_im {R : Type} {q a b : R} : (Sqd.mk a b : Sqd R q).im = b := rfl

variable {R : Type} [CommRing R] {q : R}

instance : Zero (Sqd R q) := ⟨⟨0, 0⟩⟩

instance : One (Sqd R q) := ⟨⟨1, 0⟩⟩

instance : Add (Sqd R q) := ⟨fun x y => ⟨x.re + y.re, x.im + y.im⟩⟩

instance : Neg (Sqd R q) := ⟨fun x => ⟨-x.re, -x.im⟩⟩

instance : Mul (Sqd R q) :=
  ⟨fun x y => ⟨x.re * y.re + q * (x.im * y.im), x.re * y.im + x.im * y.re⟩⟩

@[simp] theorem zero_re : (0 : Sqd R q).re = 0 := rfl

@[simp] theorem zero_im : (0 : Sqd R q).im = 0 := rfl

@[simp] theorem one_re : (1 : Sqd R q).re = 1 := rfl

@[simp] theorem one_im : (1 : Sqd R q).im = 0 := rfl

@[simp] theorem add_re (x y : Sqd R q) : (x + y).re = x.re + y.re := rfl

@[simp] theorem add_im (x y : Sqd R q) : (x + y).im = x.im + y.im := rfl

@[simp] theorem neg_re (x : Sqd R q) : (-x).re = -x.re := rfl

@[simp] theorem neg_im (x : Sqd R q) : (-x).im = -x.im := rfl

@[simp] theorem mul_re (x y : Sqd R q) :
    (x * y).re = x.re * y.re + q * (x.im * y.im) := rfl

@[simp] theorem mul_im (x y : Sqd R q) :
    (x * y).im = x.re * y.im + x.im * y.re := rfl

instance addCommGroup : AddCommGroup (Sqd R q) := by
  refine
  { add := (· + ·)
    zero := (0 : Sqd R q)
    sub := fun a b => a + -b
    neg := Neg.neg
    nsmul := @nsmulRec (Sqd R q) ⟨0⟩ ⟨(· + ·)⟩
    zsmul := @zsmulRec (Sqd R q) ⟨0⟩ ⟨(· + ·)⟩ ⟨Neg.neg⟩ (@nsmulRec (Sqd R q) ⟨0⟩ ⟨(· + ·)⟩)
    add_assoc := ?_
    zero_add := ?_
    add_zero := ?_
    neg_add_cancel := ?_
    add_comm := ?_ } <;>
  intros <;>
  ext <;>
  simp [add_comm, add_left_comm]

instance commRing : CommRing (Sqd R q) := by
  refine
  { Sqd.addCommGroup with
    mul := (· * ·)
    one := (1 : Sqd R q)
    npow := @npowRec (Sqd R q) ⟨1⟩ ⟨(· * ·)⟩
    add_comm := ?_
    left_distrib := ?_
    right_distrib := ?_
    zero_mul := ?_
    mul_zero := ?_
    mul_assoc := ?_
    one_mul := ?_
    mul_one := ?_
    mul_comm := ?_ } <;>
  intros <;>
  ext <;>
  simp <;>
  ring

@[simp] theorem natCast_re (n : ℕ) : ((n : ℕ) : Sqd R q).re = n := by
  induction n with
  | zero => simp
  | succ k ih => rw [Nat.cast_succ, Nat.cast_succ, add_re, ih, one_re]

@[simp] theorem natCast_im (n : ℕ) : ((n : ℕ) : Sqd R q).im = 0 := by
  induction n with
  | zero => simp
  | succ k ih => rw [Nat.cast_succ, add_im, ih, one_im, add_zero]

@[simp] theorem ofNat_re (n : ℕ) [n.AtLeastTwo] :
    (no_index (OfNat.ofNat n) : Sqd R q).re = OfNat.ofNat n :=
  natCast_re n

@[simp] theorem ofNat_im (n : ℕ) [n.AtLeastTwo] :
    (no_index (OfNat.ofNat n) : Sqd R q).im = 0 :=
  natCast_im n

/-- The first component, as an additive monoid homomorphism. -/
def reHom : Sqd R q →+ R where
  toFun := Sqd.re
  map_zero' := rfl
  map_add' := fun _ _ => rfl

/-- The second component, as an additive monoid homomorphism. -/
def imHom : Sqd R q →+ R where
  toFun := Sqd.im
  map_zero' := rfl
  map_add' := fun _ _ => rfl

theorem sum_re {ι : Type} (s : Finset ι) (f : ι → Sqd R q) :
    (∑ x ∈ s, f x).re = ∑ x ∈ s, (f x).re :=
  map_sum reHom f s

theorem sum_im {ι : Type} (s : Finset ι) (f : ι → Sqd R q) :
    (∑ x ∈ s, f x).im = ∑ x ∈ s, (f x).im :=
  map_sum imHom f s

end Sqd

/-- Exact model of the real scalars handled by the solver: the subfield ℚ(√3) of ℝ.
Every real number the source code manipulates (integration points `±1/√3`, shape
function values, Jacobians, determinants) lies in this field. -/
abbrev Q3 : Type := Sqd ℚ 3

/-- Exact model of the complex scalars handled by the solver: ℚ(√3) adjoined `i`. -/
abbrev K3 : Type := Sqd Q3 (-1)

/-- The real number `√3 = np.sqrt(3.0)`. -/
def sqrt3 : Q3 := ⟨0, 1⟩

/-- The imaginary unit `1j` of the complex scalars. -/
def I3 : K3 := ⟨0, 1⟩

/-- Embedding of the real scalars into the complex scalars
(numpy's implicit real-to-complex promotion). -/
def ofQ3 (x : Q3) : K3 := ⟨x, 0⟩

instance : Inv Q3 :=
  ⟨fun x => ⟨x.re / (x.re ^ 2 - 3 * x.im ^ 2), -x.im / (x.re ^ 2 - 3 * x.im ^ 2)⟩⟩

instance : Div Q3 := ⟨fun x y => x * y⁻¹⟩

theorem sqrt3_sq : sqrt3 * sqrt3 = 3 := by
  ext <;> simp [sqrt3]

theorem div_def (x y : Q3) : x / y = x * y⁻¹ := rfl

theorem inv_def (x : Q3) :
    x⁻¹ = ⟨x.re / (x.re ^ 2 - 3 * x.im ^ 2), -x.im / (x.re ^ 2 - 3 * x.im ^ 2)⟩ := rfl

theorem mul_sqrt3_inv_cancel : sqrt3 * (1 / sqrt3) = 1 := by
  rw [div_def, one_mul, inv_def]
  ext <;> simp [sqrt3]

@[simp] theorem ofQ3_zero : ofQ3 0 = 0 := rfl

@[simp] theorem ofQ3_one : ofQ3 1 = 1 := rfl

@[simp] theorem ofQ3_add (x y : Q3) : ofQ3 (x + y) = ofQ3 x + ofQ3 y := by
  ext <;> simp [ofQ3]

@[simp] theorem ofQ3_mul (x y : Q3) : ofQ3 (x * y) = ofQ3 x * ofQ3 y := by
  ext <;> simp [ofQ3]

/-- `ofQ3` as a ring homomorphism. -/
def ofQ3Hom : Q3 →+* K3 where
  toFun := ofQ3
  map_one' := rfl
  map_mul' := fun x y => ofQ3_mul x y
  map_zero' := rfl
  map_add' := fun x y => ofQ3_add x y

/-!
## Element kernel (`_build_local_Ke`, `_build_local_f` in `solver.py`)

The source iterates over the 4 Gauss integration points, accumulating the
mass (`M_hat`), damping (`C_hat`) and stiffness (`K_hat`) contributions.
The loop is embedded as a `List.foldl` over `List.finRange 4` carrying the
three accumulators.
-/

open Matrix

/-- The 4×2 array `integration_point` of Gauss abscissae `r, s = ±1/√3`. -/
def integrationPoint : Matrix (Fin 4) (Fin 2) Q3 :=
  !![-(1 / sqrt3), -(1 / sqrt3);
     1 / sqrt3, -(1 / sqrt3);
     1 / sqrt3, 1 / sqrt3;
     -(1 / sqrt3), 1 / sqrt3]

/-- The quadrature weight array `w = [1, 1, 1, 1]`. -/
def w : Fin 4 → Q3 := fun _ => 1

/-- The 1×4 row `N` of bilinear shape function values at `(r, s)`,
as filled in by the four assignments `N[0, k] = ...` of the source. -/
def shapeN (r s : Q3) : Matrix (Fin 1) (Fin 4) Q3 :=
  !![(1 - r) * (1 - s) / 4, (1 + r) * (1 - s) / 4,
     (1 + r) * (1 + s) / 4, (1 - r) * (1 + s) / 4]

/-- The 4×2 array `grad_N` of reference-coordinate shape function gradients
at `(r, s)` (row `k` holds `(∂N_k/∂r, ∂N_k/∂s)`). -/
def gradN (r s : Q3) : Matrix (Fin 4) (Fin 2) Q3 :=
  !![-(1 - s) / 4, -(1 - r) / 4;
     (1 - s) / 4, -(1 + r) / 4;
     (1 + s) / 4, (1 + r) / 4;
     -(1 + s) / 4, (1 - r) / 4]

/-- The Jacobian `J = np.dot(grad_N.T, element_points)` at integration point `i`. -/
def jacAt (pts : Matrix (Fin 4) (Fin 2) Q3) (i : Fin 4) : Matrix (Fin 2) (Fin 2) Q3 :=
  (gradN (integrationPoint i 0) (integrationPoint i 1))ᵀ * pts

/-- The Jacobian determinant `dJ = det(J)` at integration point `i`
(exact closed form of the 2×2 determinant). -/
def jacDetAt (pts : Matrix (Fin 4) (Fin 2) Q3) (i : Fin 4) : Q3 :=
  jacAt pts i 0 0 * jacAt pts i 1 1 - jacAt pts i 0 1 * jacAt pts i 1 0

/-- One iteration of the quadrature loop of `_build_local_Ke`: starting from the
accumulator triple `(M_hat, C_hat, K_hat)`, add the contributions of
integration point `i`.  Mirrors the loop body of the source line by line. -/
def keStep (pts : Matrix (Fin 4) (Fin 2) Q3) (omega mu eta : Q3)
    (acc : Matrix (Fin 4) (Fin 4) Q3 × Matrix (Fin 4) (Fin 4) K3 × Matrix (Fin 4) (Fin 4) Q3)
    (i : Fin 4) :
    Matrix (Fin 4) (Fin 4) Q3 × Matrix (Fin 4) (Fin 4) K3 × Matrix (Fin 4) (Fin 4) Q3 :=
  let r := integrationPoint i 0
  let s := integrationPoint i 1
  let N := shapeN r s
  let grad_N := gradN r s
  let J := grad_Nᵀ * pts
  let dJ := J 0 0 * J 1 1 - J 0 1 * J 1 0
  let inv_J : Matrix (Fin 2) (Fin 2) Q3 := !![J 1 1, -J 0 1; -J 1 0, J 0 0]
  let B := (1 / dJ) • (inv_J * grad_Nᵀ)
  (acc.1 + (w i * -(omega ^ 2) * mu * dJ) • (Nᵀ * N),
   acc.2.1 + (I3 * ofQ3 (w i * omega * eta * dJ)) • ((Nᵀ * N).map ofQ3),
   acc.2.2 + (w i * dJ) • (Bᵀ * B))

/-- `_build_local_Ke(element_points, omega, mu, eta)`: the 4×4 complex local
element matrix `K = M_hat + C_hat + K_hat` (the real accumulators are promoted
into the complex result exactly as numpy promotes them). -/
def _build_local_Ke (pts : Matrix (Fin 4) (Fin 2) Q3) (omega mu eta : Q3) :
    Matrix (Fin 4) (Fin 4) K3 :=
  let acc := (List.finRange 4).foldl (keStep pts omega mu eta) (0, 0, 0)
  acc.1.map ofQ3 + acc.2.1 + acc.2.2.map ofQ3

/-- One iteration of the quadrature loop of `_build_local_f`:
`f += w[i] * N.T * S_e * dJ` (the 4×1 column `N.T` is the vector `k ↦ N[0,k]`). -/
def fStep (pts : Matrix (Fin 4) (Fin 2) Q3) (S_e : Q3) (acc : Fin 4 → Q3) (i : Fin 4) :
    Fin 4 → Q3 :=
  let r := integrationPoint i 0
  let s := integrationPoint i 1
  let N := shapeN r s
  let grad_N := gradN r s
  let J := grad_Nᵀ * pts
  let dJ := J 0 0 * J 1 1 - J 0 1 * J 1 0
  acc + fun k => w i * N 0 k * S_e * dJ

/-- `_build_local_f(element_points, S_e)`: the 4×1 real local load vector. -/
def _build_local_f (pts : Matrix (Fin 4) (Fin 2) Q3) (S_e : Q3) : Fin 4 → Q3 :=
  (List.finRange 4).foldl (fStep pts S_e) 0

/-!
## Mesh data and global assembly (`_assembly_K`, `_assembly_f`)

The external mesh object exposes `n_points`, parallel per-element sequences
`connectivity_list`, `points_in_elements`, `mu`, `eta`, and the accessor
`source_at_element(eid)`.  We model it as a list of per-element records
together with the node count `n`; element `eid` of the zipped parallel lists
becomes entry `eid` of the record list.

The assembly picks the element kernel through `g.choose_impl(_fwi_ls...., _build_local_...)`;
the accelerated `_fwi_ls` variant is an external binding required by the spec
to be numerically equivalent to the reference kernel, so the model uses the
in-source reference kernel.
-/

/-- One element of the mesh: its 4 global node indices (one connectivity row),
its 4 node coordinate pairs, its material coefficients and its source magnitude. -/
structure MeshElement (n : ℕ) where
  conn : Fin 4 → Fin n
  pts : Matrix (Fin 4) (Fin 2) Q3
  mu : Q3
  eta : Q3
  src : Q3

/-- The mesh seen by the solver: `n` is `mesh.n_points`, `elements` the
per-element data in `connectivity_list` order. -/
structure MeshData (n : ℕ) where
  elements : List (MeshElement n)

/-- The coordinate triplet lists `(Ke_coo_i, Ke_coo_j, Ke_coo_data)` built by
`_assembly_K`: for every element in order, for every ordered pair `(k, l)` of
local slots, the triplet `(connectivity[k], connectivity[l], Ke_local[k, l])`. -/
def KeTriplets {n : ℕ} (mesh : MeshData n) (omega : Q3) : List (Fin n × Fin n × K3) :=
  mesh.elements.flatMap fun e =>
    (List.finRange 4).flatMap fun k =>
      (List.finRange 4).map fun l =>
        (e.conn k, e.conn l, _build_local_Ke e.pts omega e.mu e.eta k l)

/-- `scipy.sparse.coo_matrix((data, (i, j)), shape=(n, n))`: entry `(i, j)` is
the sum of all data values whose coordinate pair is `(i, j)` (duplicates are
summed, never overwritten). -/
def cooMatrix {n : ℕ} (ts : List (Fin n × Fin n × K3)) : Matrix (Fin n) (Fin n) K3 :=
  Matrix.of fun i j => (ts.map fun t => if t.1 = i ∧ t.2.1 = j then t.2.2 else 0).sum

/-- `_assembly_K(mesh, omega)`: the `n_points × n_points` complex global matrix. -/
def _assembly_K {n : ℕ} (mesh : MeshData n) (omega : Q3) : Matrix (Fin n) (Fin n) K3 :=
  cooMatrix (KeTriplets mesh omega)

/-- `_assembly_f(mesh)`: the global load vector, built from `np.zeros` by the
nested loops `f[connectivity[k], 0] += f_local[k, 0]`. -/
def _assembly_f {n : ℕ} (mesh : MeshData n) : Fin n → Q3 :=
  mesh.elements.foldl
    (fun f e =>
      (List.finRange 4).foldl
        (fun a k => Function.update a (e.conn k) (a (e.conn k) + _build_local_f e.pts e.src k))
        f)
    0

/-- `_prepare_linear_system(mesh, omega)`. -/
def _prepare_linear_system {n : ℕ} (mesh : MeshData n) (omega : Q3) :
    Matrix (Fin n) (Fin n) K3 × (Fin n → Q3) :=
  (_assembly_K mesh omega, _assembly_f mesh)

/-!
## Complex-to-real transform and orchestrator

`convert_complex_linear_system_to_real` and `extract_complex_solution` live in
the module `complex_linear_system`, and `dispatch_callbacks` in the module
`callbacks`; neither module is part of the sources, so both are modelled from
the specification.  The external sparse solver (`pypardiso.spsolve`) is a
parameter of the orchestrator.
-/

/-- Modelled from the spec: `convert_complex_linear_system_to_real` (module
`complex_linear_system`, not in the sources).  Writing `K = Kr + i·Ki`, the
complex system `K·x = f` (`f` real) becomes the real block system
`[[Kr, -Ki], [Ki, Kr]]·[xr; xi] = [f; 0]` of twice the dimension.  The row and
column index `Fin n ⊕ Fin n` is the 2n-fold index: `inl` is the first block
(`0 ≤ idx < n`), `inr` the second (`n ≤ idx < 2n`). -/
def convert_complex_linear_system_to_real {n : ℕ}
    (K : Matrix (Fin n) (Fin n) K3) (f : Fin n → Q3) :
    Matrix (Fin n ⊕ Fin n) (Fin n ⊕ Fin n) Q3 × (Fin n ⊕ Fin n → Q3) :=
  (Matrix.fromBlocks
      (Matrix.of fun i j => (K i j).re) (Matrix.of fun i j => -(K i j).im)
      (Matrix.of fun i j => (K i j).im) (Matrix.of fun i j => (K i j).re),
   Sum.elim f 0)

/-- Modelled from the spec: `extract_complex_solution` (module
`complex_linear_system`, not in the sources) maps the real solution `ye` back
to the complex solution `x = ye[0:n] + i·ye[n:2n]`. -/
def extract_complex_solution {n : ℕ} (ye : Fin n ⊕ Fin n → Q3) : Fin n → K3 :=
  fun i => ⟨ye (Sum.inl i), ye (Sum.inr i)⟩

/-- Modelled from the spec: `dispatch_callbacks` (module `callbacks`, not in
the sources).  The registry maps an event name to the list of registered
handlers; dispatching invokes every handler registered under the event, in
registration order, with the keyword payload `(P, mesh)`; an event with no
registered handlers is a no-op.  The returned list is the trace of handler
invocations. -/
def dispatch_callbacks {n : ℕ} {α : Type}
    (callbacks : String → List ((Fin n → K3) → MeshData n → α))
    (evt : String) (P : Fin n → K3) (mesh : MeshData n) : List α :=
  (callbacks evt).map fun handler => handler P mesh

/-- `solve_2d_hellmholtz(mesh, omega, callbacks=None)`.  `linsolver` stands for
the external real sparse solver `pypardiso.spsolve` called by
`_solve_linear_system`.  The Python function body ends after the
`dispatch_callbacks` call with no `return` statement, hence the `none` in the
first component (the function returns `None`); the second component is the
trace of callback invocations. -/
def solve_2d_hellmholtz {n : ℕ} {α : Type}
    (linsolver : Matrix (Fin n ⊕ Fin n) (Fin n ⊕ Fin n) Q3 → (Fin n ⊕ Fin n → Q3) →
      (Fin n ⊕ Fin n → Q3))
    (mesh : MeshData n) (omega : Q3)
    (callbacks : Option (String → List ((Fin n → K3) → MeshData n → α))) :
    Option (Fin n → K3) × List α :=
  let cbs := callbacks.getD fun _ => []
  let Kef := _prepare_linear_system mesh omega
  let Kf := convert_complex_linear_system_to_real Kef.1 Kef.2
  let P := extract_complex_solution (linsolver Kf.1 Kf.2)
  (none, dispatch_callbacks cbs "on_after_solve_2d_hellmholtz" P mesh)

/-!
## Closed forms of the quadrature loops

The per-point contributions of the `_build_local_Ke` loop, and lemmas turning
each accumulation loop into a sum over the 4 integration points.
-/

/-- The mass contribution `w[i] * -(omega**2) * mu * np.dot(N.T, N) * dJ`
of integration point `i`. -/
def keM (pts : Matrix (Fin 4) (Fin 2) Q3) (omega mu : Q3) (i : Fin 4) :
    Matrix (Fin 4) (Fin 4) Q3 :=
  (w i * -(omega ^ 2) * mu * jacDetAt pts i) •
    ((shapeN (integrationPoint i 0) (integrationPoint i 1))ᵀ *
      shapeN (integrationPoint i 0) (integrationPoint i 1))

/-- The damping contribution `w[i] * 1j * omega * eta * np.dot(N.T, N) * dJ`
of integration point `i`. -/
def keC (pts : Matrix (Fin 4) (Fin 2) Q3) (omega eta : Q3) (i : Fin 4) :
    Matrix (Fin 4) (Fin 4) K3 :=
  (I3 * ofQ3 (w i * omega * eta * jacDetAt pts i)) •
    (((shapeN (integrationPoint i 0) (integrationPoint i 1))ᵀ *
        shapeN (integrationPoint i 0) (integrationPoint i 1)).map ofQ3)

/-- The physical-coordinate gradient `B = (1/dJ) * np.dot(inv_J, grad_N.T)`
at integration point `i`, with `inv_J` the 2×2 cofactor matrix of `J`. -/
def Bmat (pts : Matrix (Fin 4) (Fin 2) Q3) (i : Fin 4) : Matrix (Fin 2) (Fin 4) Q3 :=
  (1 / jacDetAt pts i) •
    (!![jacAt pts i 1 1, -jacAt pts i 0 1; -jacAt pts i 1 0, jacAt pts i 0 0] *
      (gradN (integrationPoint i 0) (integrationPoint i 1))ᵀ)

/-- The stiffness contribution `w[i] * np.dot(B.T, B) * dJ` of integration point `i`. -/
def keKh (pts : Matrix (Fin 4) (Fin 2) Q3) (i : Fin 4) : Matrix (Fin 4) (Fin 4) Q3 :=
  (w i * jacDetAt pts i) • ((Bmat pts i)ᵀ * Bmat pts i)

/-- The load contribution `w[i] * N.T * S_e * dJ` of integration point `i`. -/
def fPt (pts : Matrix (Fin 4) (Fin 2) Q3) (S_e : Q3) (i : Fin 4) : Fin 4 → Q3 :=
  fun k => w i * shapeN (integrationPoint i 0) (integrationPoint i 1) 0 k * S_e * jacDetAt pts i

theorem keStep_eq (pts : Matrix (Fin 4) (Fin 2) Q3) (omega mu eta : Q3)
    (acc : Matrix (Fin 4) (Fin 4) Q3 × Matrix (Fin 4) (Fin 4) K3 × Matrix (Fin 4) (Fin 4) Q3)
    (i : Fin 4) :
    keStep pts omega mu eta acc i =
      (acc.1 + keM pts omega mu i, acc.2.1 + keC pts omega eta i, acc.2.2 + keKh pts i) :=
  rfl

theorem fStep_eq (pts : Matrix (Fin 4) (Fin 2) Q3) (S_e : Q3) (acc : Fin 4 → Q3) (i : Fin 4) :
    fStep pts S_e acc i = acc + fPt pts S_e i :=
  rfl

theorem finRange_four : List.finRange 4 = [0, 1, 2, 3] := by decide

theorem build_local_Ke_eq (pts : Matrix (Fin 4) (Fin 2) Q3) (omega mu eta : Q3) :
    _build_local_Ke pts omega mu eta =
      (∑ i : Fin 4, keM pts omega mu i).map ofQ3 + (∑ i : Fin 4, keC pts omega eta i) +
        (∑ i : Fin 4, keKh pts i).map ofQ3 := by
  simp [_build_local_Ke, finRange_four, List.foldl, keStep_eq, Fin.sum_univ_four, add_assoc]

theorem build_local_f_eq (pts : Matrix (Fin 4) (Fin 2) Q3) (S_e : Q3) :
    _build_local_f pts S_e = ∑ i : Fin 4, fPt pts S_e i := by
  simp [_build_local_f, finRange_four, List.foldl, fStep_eq, Fin.sum_univ_four, add_assoc]

theorem keM_symm (pts : Matrix (Fin 4) (Fin 2) Q3) (omega mu : Q3) (i k l : Fin 4) :
    keM pts omega mu i k l = keM pts omega mu i l k := by
  simp [keM, Matrix.smul_apply, Matrix.mul_apply, Fin.sum_univ_one, Matrix.transpose_apply]
  ring

theorem keC_symm (pts : Matrix (Fin 4) (Fin 2) Q3) (omega eta : Q3) (i k l : Fin 4) :
    keC pts omega eta i k l = keC pts omega eta i l k := by
  simp [keC, Matrix.smul_apply, Matrix.map_apply, Matrix.mul_apply, Fin.sum_univ_one,
    Matrix.transpose_apply]
  ring_nf

theorem keKh_symm (pts : Matrix (Fin 4) (Fin 2) Q3) (i k l : Fin 4) :
    keKh pts i k l = keKh pts i l k := by
  simp [keKh, Matrix.smul_apply, Matrix.mul_apply, Fin.sum_univ_two, Matrix.transpose_apply]
  ring

theorem build_local_Ke_symm (pts : Matrix (Fin 4) (Fin 2) Q3) (omega mu eta : Q3) (k l : Fin 4) :
    _build_local_Ke pts omega mu eta k l = _build_local_Ke pts omega mu eta l k := by
  simp only [build_local_Ke_eq, Matrix.add_apply, Matrix.map_apply, Matrix.sum_apply]
  rw [Finset.sum_congr rfl fun i _ => keM_symm pts omega mu i k l,
    Finset.sum_congr rfl fun i _ => keC_symm pts omega eta i k l,
    Finset.sum_congr rfl fun i _ => keKh_symm pts i k l]

/-!
## Closed forms of the global assembly
-/

theorem cooMatrix_append {n : ℕ} (ts1 ts2 : List (Fin n × Fin n × K3)) (i j : Fin n) :
    cooMatrix (ts1 ++ ts2) i j = cooMatrix ts1 i j + cooMatrix ts2 i j := by
  simp [cooMatrix, List.map_append, List.sum_append]

theorem cooMatrix_elem {n : ℕ} (c : Fin 4 → Fin n) (A : Matrix (Fin 4) (Fin 4) K3)
    (i j : Fin n) :
    cooMatrix ((List.finRange 4).flatMap fun k =>
        (List.finRange 4).map fun l => (c k, c l, A k l)) i j =
      ∑ k : Fin 4, ∑ l : Fin 4, if c k = i ∧ c l = j then A k l else 0 := by
  simp [cooMatrix, finRange_four, Fin.sum_univ_four, add_assoc]

theorem assembly_K_entry {n : ℕ} (mesh : MeshData n) (omega : Q3) (i j : Fin n) :
    _assembly_K mesh omega i j =
      (mesh.elements.map fun e => ∑ k : Fin 4, ∑ l : Fin 4,
        if e.conn k = i ∧ e.conn l = j then _build_local_Ke e.pts omega e.mu e.eta k l
        else 0).sum := by
  unfold _assembly_K KeTriplets
  induction mesh.elements with
  | nil => simp [cooMatrix]
  | cons e es ih =>
    rw [List.flatMap_cons, cooMatrix_append, ih, List.map_cons, List.sum_cons, cooMatrix_elem]

theorem foldl_update {n : ℕ} (L : List (Fin 4)) (c : Fin 4 → Fin n) (v : Fin 4 → Q3)
    (a : Fin n → Q3) (p : Fin n) :
    (L.foldl (fun a k => Function.update a (c k) (a (c k) + v k)) a) p =
      a p + (L.map fun k => if c k = p then v k else 0).sum := by
  induction L generalizing a with
  | nil => simp
  | cons x xs ih =>
    rw [List.foldl_cons, ih, List.map_cons, List.sum_cons]
    rcases eq_or_ne (c x) p with h | h
    · subst h
      rw [Function.update_same, if_pos rfl, add_assoc]
    · rw [Function.update_noteq (Ne.symm h), if_neg h, zero_add]

theorem assembly_f_foldl {n : ℕ} (es : List (MeshElement n)) (a : Fin n → Q3) (p : Fin n) :
    (es.foldl
        (fun (f : Fin n → Q3) (e : MeshElement n) =>
          (List.finRange 4).foldl
            (fun a k =>
              Function.update a (e.conn k) (a (e.conn k) + _build_local_f e.pts e.src k))
            f)
        a) p =
      a p + (es.map fun e => ∑ k : Fin 4,
        if e.conn k = p then _build_local_f e.pts e.src k else 0).sum := by
  induction es generalizing a with
  | nil => simp
  | cons e es ih =>
    rw [List.foldl_cons, ih, List.map_cons, List.sum_cons, foldl_update, add_assoc,
      Fin.sum_univ_def]

theorem assembly_f_entry {n : ℕ} (mesh : MeshData n) (p : Fin n) :
    _assembly_f mesh p =
      (mesh.elements.map fun e => ∑ k : Fin 4,
        if e.conn k = p then _build_local_f e.pts e.src k else 0).sum := by
  have h := assembly_f_foldl mesh.elements 0 p
  simpa [_assembly_f] using h

/-!
## Spec-side definitions and concrete fixtures for the claims
-/

/-- The local element matrix exactly as the specification words it (claim C5):
evaluate the bilinear shape functions and their reference gradients at the 4
Gauss points `r, s = ±1/√3` with unit weights; at each point form
`J = gradNᵀ·element_points`, its determinant `dJ`, the cofactor matrix of `J`,
and `B = (1/dJ)·inv(J)·gradNᵀ`; accumulate `M_hat += -ω²·μ·(Nᵀ·N)·dJ`,
`C_hat += i·ω·η·(Nᵀ·N)·dJ`, `K_hat += (Bᵀ·B)·dJ`; return `M_hat + C_hat + K_hat`. -/
def keSpecC5 (pts : Matrix (Fin 4) (Fin 2) Q3) (omega mu eta : Q3) :
    Matrix (Fin 4) (Fin 4) K3 :=
  let M_hat : Matrix (Fin 4) (Fin 4) Q3 :=
    ∑ i : Fin 4,
      (-(omega ^ 2) * mu * jacDetAt pts i) •
        ((shapeN (integrationPoint i 0) (integrationPoint i 1))ᵀ *
          shapeN (integrationPoint i 0) (integrationPoint i 1))
  let C_hat : Matrix (Fin 4) (Fin 4) K3 :=
    ∑ i : Fin 4,
      (I3 * ofQ3 (omega * eta * jacDetAt pts i)) •
        (((shapeN (integrationPoint i 0) (integrationPoint i 1))ᵀ *
            shapeN (integrationPoint i 0) (integrationPoint i 1)).map ofQ3)
  let K_hat : Matrix (Fin 4) (Fin 4) Q3 :=
    ∑ i : Fin 4, jacDetAt pts i • ((Bmat pts i)ᵀ * Bmat pts i)
  M_hat.map ofQ3 + C_hat + K_hat.map ofQ3

/-- The mesh with every element's source magnitude scaled by the constant `c`
(everything else, in particular the matrix side, unchanged). -/
def scaleSources {n : ℕ} (c : Q3) (mesh : MeshData n) : MeshData n :=
  ⟨mesh.elements.map fun e => { e with src := c * e.src }⟩

/-- A degenerate element: all four nodes coincide at the origin (zero-area
quadrilateral; the Jacobian determinant vanishes at every integration point). -/
def degeneratePts : Matrix (Fin 4) (Fin 2) Q3 := 0

/-- Fixture: a mesh with a single node and no elements. -/
def emptyMesh1 : MeshData 1 := ⟨[]⟩

/-- Fixture: an external solver returning the zero vector. -/
def zeroSolver : Matrix (Fin 1 ⊕ Fin 1) (Fin 1 ⊕ Fin 1) Q3 → (Fin 1 ⊕ Fin 1 → Q3) →
    (Fin 1 ⊕ Fin 1 → Q3) :=
  fun _ _ => 0

/-- Fixture: the 1×1 complex matrix `[[i]]`. -/
def Kfix : Matrix (Fin 1) (Fin 1) K3 := Matrix.of fun _ _ => ⟨0, 1⟩

/-- Fixture: the real right-hand side `(2)`. -/
def ffix : Fin 1 → Q3 := fun _ => 2

/-- Fixture: the real 2-vector `(0, -2)`, the exact solution of the transformed
system for `Kfix`, `ffix`. -/
def yefix : Fin 1 ⊕ Fin 1 → Q3 := Sum.elim (fun _ => 0) (fun _ => -2)

/-!
## Claim theorems
-/

/-- C3 counterexample: the claim asserts that with no callback configured the
solution field is delivered as the direct return value; in fact
`solve_2d_hellmholtz` has no `return` statement, so with the default empty
callback registry it evaluates to `(none, [])`: the field is computed but
neither returned nor delivered. -/
theorem C3_counterexample_no_return :
    solve_2d_hellmholtz zeroSolver emptyMesh1 1
        (none : Option (String → List ((Fin 1 → K3) → MeshData 1 → Unit))) =
      (none, []) :=
  rfl

/-- C3 (amended): `solve_2d_hellmholtz` always returns `None`; the complex
solution field `P = extract_complex_solution (solve (convert (K, f)))` of length
`n_points` is delivered only through the callbacks registered under the event
`on_after_solve_2d_hellmholtz`, each invoked, in registration order, with the
payload `P` and the input mesh. -/
theorem C3_delivery_via_callbacks {n : ℕ} {α : Type}
    (linsolver : Matrix (Fin n ⊕ Fin n) (Fin n ⊕ Fin n) Q3 → (Fin n ⊕ Fin n → Q3) →
      (Fin n ⊕ Fin n → Q3))
    (mesh : MeshData n) (omega : Q3)
    (reg : String → List ((Fin n → K3) → MeshData n → α)) :
    solve_2d_hellmholtz linsolver mesh omega (some reg) =
      (none,
        (reg "on_after_solve_2d_hellmholtz").map fun handler =>
          handler
            (extract_complex_solution
              (linsolver
                (convert_complex_linear_system_to_real (_assembly_K mesh omega)
                  (_assembly_f mesh)).1
                (convert_complex_linear_system_to_real (_assembly_K mesh omega)
                  (_assembly_f mesh)).2))
            mesh) :=
  rfl

/-- C6: each global matrix entry `(i, j)` is the sum, over all elements and all
ordered local slot pairs `(k, l)` with `connectivity[k] = i` and
`connectivity[l] = j`, of the local matrix entries (duplicates summed, never
overwritten), and each global load entry at node `p` is the sum of the local
load entries of every element slot mapped to `p`. -/
theorem C6_additive_accumulation {n : ℕ} (mesh : MeshData n) (omega : Q3)
    (i j p : Fin n) :
    _assembly_K mesh omega i j =
      (mesh.elements.map fun e => ∑ k : Fin 4, ∑ l : Fin 4,
        if e.conn k = i ∧ e.conn l = j then _build_local_Ke e.pts omega e.mu e.eta k l
        else 0).sum ∧
    _assembly_f mesh p =
      (mesh.elements.map fun e => ∑ k : Fin 4,
        if e.conn k = p then _build_local_f e.pts e.src k else 0).sum :=
  ⟨assembly_K_entry mesh omega i j, assembly_f_entry mesh p⟩

/-- C8: assembling a mesh with zero elements succeeds and yields the all-zero
`n_points × n_points` matrix and the all-zero `n_points`-vector (the declared
dimensions, enforced here by the types, are kept). -/
theorem C8_empty_mesh_assembly (n : ℕ) (omega : Q3) :
    _assembly_K (⟨[]⟩ : MeshData n) omega = 0 ∧ _assembly_f (⟨[]⟩ : MeshData n) = 0 := by
  constructor
  · ext i j <;> simp [assembly_K_entry]
  · funext p
    simp [assembly_f_entry]

/-- C9: the element kernels are pure: deterministic (equal arguments give equal
results) and total, with no effect on anything but their return value — in this
embedding each kernel is by construction a function of exactly its arguments,
which also models the absence of mutation of `element_points` or global state. -/
theorem C9_kernel_pure (p1 p2 : Matrix (Fin 4) (Fin 2) Q3) (o1 o2 m1 m2 e1 e2 S1 S2 : Q3)
    (hp : p1 = p2) (ho : o1 = o2) (hm : m1 = m2) (he : e1 = e2) (hS : S1 = S2) :
    _build_local_Ke p1 o1 m1 e1 = _build_local_Ke p2 o2 m2 e2 ∧
    _build_local_f p1 S1 = _build_local_f p2 S2 := by
  subst hp ho hm he hS
  exact ⟨rfl, rfl⟩

/-- Witness for C9 at a concrete input. -/
theorem C9_kernel_pure_witness :
    _build_local_Ke 0 1 1 1 = _build_local_Ke 0 1 1 1 ∧
    _build_local_f 0 1 = _build_local_f 0 1 :=
  C9_kernel_pure 0 0 1 1 1 1 1 1 1 1 rfl rfl rfl rfl rfl

/-- C10: calling `solve_2d_hellmholtz` with the callbacks argument omitted
(`None`) is the same as calling it with an empty handler registry: assembly,
transform and solve all run identically, the callback dispatch is a no-op, and
no error is raised (the function is total). -/
theorem C10_callbacks_default {n : ℕ} {α : Type}
    (linsolver : Matrix (Fin n ⊕ Fin n) (Fin n ⊕ Fin n) Q3 → (Fin n ⊕ Fin n → Q3) →
      (Fin n ⊕ Fin n → Q3))
    (mesh : MeshData n) (omega : Q3) :
    solve_2d_hellmholtz linsolver mesh omega
        (none : Option (String → List ((Fin n → K3) → MeshData n → α))) =
      solve_2d_hellmholtz linsolver mesh omega (some fun _ => []) ∧
    (solve_2d_hellmholtz linsolver mesh omega
        (none : Option (String → List ((Fin n → K3) → MeshData n → α)))).2 = [] :=
  ⟨rfl, rfl⟩

theorem jacDetAt_degenerate (i : Fin 4) : jacDetAt degeneratePts i = 0 := by
  simp [jacDetAt, jacAt, degeneratePts]

/-- C2: the claim says a zero or negative Jacobian determinant raises a
degenerate-element error; in fact the element kernels contain no check on `dJ`
at all.  On the fully degenerate element whose four nodes coincide, `dJ = 0` at
every integration point, yet both `_build_local_Ke` and `_build_local_f` run to
completion and return plain values (in this exact-arithmetic model the zero
matrix and zero vector; in IEEE arithmetic the `1/dJ` factor makes the entries
non-finite) instead of raising any error. -/
theorem C2_no_degenerate_error :
    (∀ i : Fin 4, jacDetAt degeneratePts i = 0) ∧
    _build_local_Ke degeneratePts 1 1 1 = 0 ∧
    _build_local_f degeneratePts 1 = 0 := by
  refine ⟨jacDetAt_degenerate, ?_, ?_⟩
  · rw [build_local_Ke_eq]
    have hM : ∀ i, keM degeneratePts 1 1 i = 0 := fun i => by
      simp [keM, jacDetAt_degenerate]
    have hC : ∀ i, keC degeneratePts 1 1 i = 0 := fun i => by
      simp [keC, jacDetAt_degenerate]
    have hK : ∀ i, keKh degeneratePts i = 0 := fun i => by
      simp [keKh, jacDetAt_degenerate]
    simp [hM, hC, hK]
  · rw [build_local_f_eq]
    have hf : ∀ i, fPt degeneratePts 1 i = 0 := fun i => by
      funext k
      simp [fPt, jacDetAt_degenerate]
    simp [hf]

theorem assembly_K_symm {n : ℕ} (mesh : MeshData n) (omega : Q3) (i j : Fin n) :
    _assembly_K mesh omega i j = _assembly_K mesh omega j i := by
  rw [assembly_K_entry, assembly_K_entry]
  congr 1
  induction mesh.elements with
  | nil => rfl
  | cons e es ih =>
    rw [List.map_cons, List.map_cons, ih]
    congr 1
    rw [Finset.sum_comm]
    refine Finset.sum_congr rfl fun x _ => Finset.sum_congr rfl fun y _ => ?_
    by_cases h : e.conn y = i ∧ e.conn x = j
    · rw [if_pos h, if_pos ⟨h.2, h.1⟩, build_local_Ke_symm]
    · rw [if_neg h, if_neg fun hc => h ⟨hc.2, hc.1⟩]

/-- C4: every 4×4 local matrix returned by `_build_local_Ke` is symmetric, and
the assembled global matrix is symmetric: `K[i,j] = K[j,i]` for all node
indices (for every mesh, degenerate or not). -/
theorem C4_matrix_symmetry {n : ℕ} (mesh : MeshData n) (omega : Q3) (i j : Fin n)
    (pts : Matrix (Fin 4) (Fin 2) Q3) (mu eta : Q3) (k l : Fin 4) :
    _build_local_Ke pts omega mu eta k l = _build_local_Ke pts omega mu eta l k ∧
    _assembly_K mesh omega i j = _assembly_K mesh omega j i :=
  ⟨build_local_Ke_symm pts omega mu eta k l, assembly_K_symm mesh omega i j⟩

/-- C5: `_build_local_Ke` computes exactly the local matrix described by the
specification: bilinear shape functions and reference gradients evaluated at
the 4 Gauss points `r, s = ±1/√3` with unit weights, Jacobian
`J = gradNᵀ·element_points`, determinant `dJ`, cofactor inverse,
`B = (1/dJ)·inv(J)·gradNᵀ`, and the accumulated sum
`M_hat + C_hat + K_hat` of `-ω²·μ·(Nᵀ·N)·dJ`, `i·ω·η·(Nᵀ·N)·dJ`, `(Bᵀ·B)·dJ`. -/
theorem C5_kernel_formula (pts : Matrix (Fin 4) (Fin 2) Q3) (omega mu eta : Q3) :
    _build_local_Ke pts omega mu eta = keSpecC5 pts omega mu eta := by
  rw [build_local_Ke_eq]
  simp [keSpecC5, keM, keC, keKh, w, one_mul]

theorem build_local_f_smul (pts : Matrix (Fin 4) (Fin 2) Q3) (c S_e : Q3) :
    _build_local_f pts (c * S_e) = fun k => c * _build_local_f pts S_e k := by
  rw [build_local_f_eq, build_local_f_eq]
  funext k
  rw [Finset.sum_apply, Finset.sum_apply, Finset.mul_sum]
  refine Finset.sum_congr rfl fun i _ => ?_
  simp only [fPt]
  ring

theorem list_sum_map_mul {α : Type} (L : List α) (c : Q3) (g : α → Q3) :
    (L.map fun x => c * g x).sum = c * (L.map g).sum := by
  induction L with
  | nil => simp
  | cons x xs ih => simp [ih, mul_add]

theorem assembly_f_smul {n : ℕ} (mesh : MeshData n) (c : Q3) :
    _assembly_f (scaleSources c mesh) = fun p => c * _assembly_f mesh p := by
  funext p
  rw [assembly_f_entry, assembly_f_entry, scaleSources, List.map_map]
  rw [show ((fun e => ∑ k : Fin 4,
      if MeshElement.conn e k = p then _build_local_f e.pts e.src k else 0) ∘
      fun e : MeshElement n => { e with src := c * e.src }) =
      fun e : MeshElement n => c * ∑ k : Fin 4,
        if e.conn k = p then _build_local_f e.pts e.src k else 0 from ?_]
  · rw [list_sum_map_mul]
  · funext e
    simp only [Function.comp]
    rw [Finset.mul_sum]
    refine Finset.sum_congr rfl fun k _ => ?_
    by_cases h : e.conn k = p
    · rw [if_pos h, if_pos h, build_local_f_smul]
    · rw [if_neg h, if_neg h, mul_zero]

/-- C7: scaling every element's source magnitude by a constant `c` while the
matrix `K` is unchanged scales the local load vectors, the global load vector,
and hence the solved field, by the same constant `c`. -/
theorem C7_source_scaling {n : ℕ} (mesh : MeshData n) (c : Q3)
    (K : Matrix (Fin n) (Fin n) K3) (P : Fin n → K3)
    (h : K.mulVec P = fun p => ofQ3 (_assembly_f mesh p)) :
    (∀ (pts : Matrix (Fin 4) (Fin 2) Q3) (S_e : Q3),
      _build_local_f pts (c * S_e) = fun k => c * _build_local_f pts S_e k) ∧
    _assembly_f (scaleSources c mesh) = (fun p => c * _assembly_f mesh p) ∧
    K.mulVec (fun i => ofQ3 c * P i) = fun p => ofQ3 (c * _assembly_f mesh p) := by
  refine ⟨fun pts S_e => build_local_f_smul pts c S_e, assembly_f_smul mesh c, ?_⟩
  funext p
  have hp := congrFun h p
  simp only [Matrix.mulVec, Matrix.dotProduct] at hp ⊢
  rw [ofQ3_mul, ← hp, Finset.mul_sum]
  exact Finset.sum_congr rfl fun j _ => by ring

/-- Witness for C7 at a concrete input: the one-node zero-element mesh,
the zero matrix, the zero solution and `c = 2`. -/
theorem C7_source_scaling_witness :
    ((0 : Matrix (Fin 1) (Fin 1) K3).mulVec 0 = fun p => ofQ3 (_assembly_f emptyMesh1 p)) ∧
    (0 : Matrix (Fin 1) (Fin 1) K3).mulVec (fun i => ofQ3 2 * (0 : Fin 1 → K3) i) =
      (fun p => ofQ3 (2 * _assembly_f emptyMesh1 p)) := by
  have hyp : (0 : Matrix (Fin 1) (Fin 1) K3).mulVec 0 =
      fun p => ofQ3 (_assembly_f emptyMesh1 p) := by
    funext p
    simp [emptyMesh1, assembly_f_entry, Matrix.mulVec_zero]
  exact ⟨hyp, (C7_source_scaling emptyMesh1 2 0 0 hyp).2.2⟩

/-- C1: the complex-to-real transform is exact and reversible: for every complex
`n×n` matrix `K` and real vector `f`, `convert_complex_linear_system_to_real`
yields the real block system `[[Kr, -Ki], [Ki, Kr]]`, `[f; 0]`, and
`extract_complex_solution` maps `ye` to `ye[0:n] + i·ye[n:2n]`; whenever
`Ke·ye = fe` holds exactly, the extracted `x` satisfies `K·x = f`. -/
theorem C1_transform_exact {n : ℕ} (K : Matrix (Fin n) (Fin n) K3) (f : Fin n → Q3)
    (ye : Fin n ⊕ Fin n → Q3)
    (h : (convert_complex_linear_system_to_real K f).1.mulVec ye =
      (convert_complex_linear_system_to_real K f).2) :
    K.mulVec (extract_complex_solution ye) = fun i => ofQ3 (f i) := by
  funext i
  have h1 := congrFun h (Sum.inl i)
  have h2 := congrFun h (Sum.inr i)
  simp only [convert_complex_linear_system_to_real, Matrix.mulVec, Matrix.dotProduct,
    Fintype.sum_sum_type, Matrix.fromBlocks_apply₁₁, Matrix.fromBlocks_apply₁₂,
    Matrix.fromBlocks_apply₂₁, Matrix.fromBlocks_apply₂₂, Matrix.of_apply,
    Sum.elim_inl, Sum.elim_inr, neg_mul] at h1 h2
  simp only [Matrix.mulVec, Matrix.dotProduct, extract_complex_solution, ofQ3]
  apply Sqd.ext
  · rw [Sqd.sum_re]
    simp only [Sqd.mul_re, Sqd.mk_re, Sqd.mk_im, neg_one_mul, Sqd.mk_re]
    rw [Finset.sum_add_distrib]
    rw [← h1]
  · rw [Sqd.sum_im]
    simp only [Sqd.mul_im, Sqd.mk_re, Sqd.mk_im]
    rw [Finset.sum_add_distrib, add_comm]
    exact h2

/-- Witness for C1 at a concrete input: `n = 1`, `K = [[i]]`, `f = (2)`,
`ye = (0, -2)`; the extracted solution is `x = -2i` and `K·x = 2 = f`. -/
theorem C1_transform_exact_witness :
    ((convert_complex_linear_system_to_real Kfix ffix).1.mulVec yefix =
      (convert_complex_linear_system_to_real Kfix ffix).2) ∧
    Kfix.mulVec (extract_complex_solution yefix) = fun i => ofQ3 (ffix i) := by
  have hyp : (convert_complex_linear_system_to_real Kfix ffix).1.mulVec yefix =
      (convert_complex_linear_system_to_real Kfix ffix).2 := by
    funext t
    rcases t with i | i <;>
      simp [convert_complex_linear_system_to_real, Kfix, ffix, yefix, Matrix.mulVec,
        Matrix.dotProduct, Fintype.sum_sum_type, Fin.sum_univ_one]
  exact ⟨hyp, C1_transform_exact Kfix ffix yefix hyp⟩
